import Mathlib

/-!
# Verification of the split-and-spectro audio dataset tooling

Shallow embedding of the three scripts (`split_audio.py`, `index_dataset.py`,
`generate_spectrogram.py`) of the repository, together with proofs of the
spec's testable properties.

* Segmentation (`split_audio.split_audio`): the walk over
  `range(0, duration_ms, segment_ms)`, the drop-short-segment policy and the
  `part%04d` naming are modelled by `splitAudio` below.
* CLI validation and the directory batch loop (`split_audio.main`) are
  modelled by `validateArgs` / `processBatch` / `runMain`.
* The FFT feature path (Hamming window, `scipy.fft.rfft` with an explicit
  point count, magnitude, rounding to 6 decimals) is modelled over `ℝ`/`ℂ`
  by `extractFeatures`.
* The dataset splitter (`index_dataset.main`) is modelled by `splitLabel`
  (shuffle-then-slice: the model receives the already-shuffled list) and
  `categoryToId` (sort basenames, enumerate, build the dict).
-/

namespace SplitAndSpectro

/-- Decimal digits of a natural number, most significant first
(fuel-based so it reduces definitionally; the fuel `n+1` always suffices). -/
def decDigitsAux : ℕ → ℕ → List Char
  | 0, _ => []
  | fuel + 1, n =>
    if n < 10 then [Char.ofNat (48 + n)]
    else decDigitsAux fuel (n / 10) ++ [Char.ofNat (48 + n % 10)]

/-- The decimal representation of `n`, as the list of its digit characters. -/
def decDigits (n : ℕ) : List Char := decDigitsAux (n + 1) n

/-- Python's `f"{i:04d}"`: the decimal representation of `i`, left-padded
with `'0'` to a minimum width of 4. -/
def pad4 (i : ℕ) : String :=
  ⟨List.replicate (4 - (decDigits i).length) '0' ++ decDigits i⟩

/-- Python's `range(0, stop, step)` for a non-negative `stop`.
`step = 0` raises `ValueError: range() arg 3 must not be zero`; a positive
`step` yields `0, step, 2*step, …` below `stop`; a negative `step` yields
the empty range (the walk would need elements greater than `stop ≥ 0`
starting from `0`). -/
def pyRangeFrom0 (stop : ℕ) (step : ℤ) : Except String (List ℤ) :=
  if step = 0 then .error "range() arg 3 must not be zero"
  else if 0 < step then
    .ok ((List.range ((stop + step.toNat - 1) / step.toNat)).map fun i : ℕ => (i : ℤ) * step)
  else .ok []

/-- One retained audio segment: the ordinal `i` of the walk step that
produced it, its half-open extent `[startMs, endMs)` in milliseconds, and
the output file name `<basename>_part<i:04d>.wav`. -/
structure Seg where
  ordinal : ℕ
  startMs : ℤ
  endMs : ℤ
  name : String
  deriving Repr, DecidableEq

/-- The function `split_audio.split_audio` (segmentation part, src/split_audio.py:31-46):
walk `start` over `range(0, duration_ms, segment_length * 1000)` with
`enumerate`, set `end = min(start + segment_ms, duration_ms)`, skip the
segment when `end - start < segment_length * 1000`, and otherwise emit it
under the name `f"{basename}_part{i:04d}.wav"`. -/
def splitAudio (basename : String) (durationMs : ℕ) (segmentLength : ℤ) :
    Except String (List Seg) :=
  (pyRangeFrom0 durationMs (segmentLength * 1000)).map fun starts =>
    starts.enum.filterMap fun p =>
      let start := p.2
      let e := min (start + segmentLength * 1000) (durationMs : ℤ)
      if e - start < segmentLength * 1000 then none
      else some ⟨p.1, start, e, basename ++ "_part" ++ pad4 p.1 ++ ".wav"⟩

/-- A file reaching the batch loop of `split_audio.main`: its basename and
the result of decoding it (`AudioSegment.from_file` either yields a
duration in milliseconds or raises a decode error). -/
abbrev AudioFile := String × Except String ℕ

/-- The directory branch of `split_audio.main` (src/split_audio.py:117-148):
each audio file is decoded and split in traversal order.  The source wraps
neither the decode nor the split in `try`/`except`, so any exception
propagates out of the loop and aborts the remaining files; the model
mirrors that by sequencing in the `Except` monad. -/
def processBatch (segmentLength : ℤ) (files : List AudioFile) :
    Except String (List String) :=
  files.foldlM
    (fun acc f =>
      match f.2 with
      | .error e => .error e
      | .ok durationMs =>
        (splitAudio f.1 durationMs segmentLength).map fun segs =>
          acc ++ segs.map (·.name))
    []

/-- The CLI arguments of `split_audio.py` after `argparse` parsing
(`--segment-length` is `type=int` with no range constraint). -/
structure Args where
  segmentLength : ℤ
  fft : Bool
  fftLength : ℤ
  fftDir : Option String
  deriving Repr, DecidableEq

/-- The eager parameter validation of `split_audio.main`
(src/split_audio.py:108-113): only when `--fft` is requested, a missing
`--fft-dir` and then a non-positive `--fft-length` are rejected via
`parser.error` (which exits with a non-zero status). -/
def validateArgs (a : Args) : Except String Unit :=
  if a.fft then
    if a.fftDir = none then .error "--fft-dir is required when --fft is specified"
    else if a.fftLength ≤ 0 then .error "--fft-length must be a positive integer"
    else .ok ()
  else .ok ()

/-- The function `split_audio.main` on a directory input: validate the parameters
eagerly, then process every audio file of the walk. -/
def runMain (a : Args) (files : List AudioFile) : Except String (List String) :=
  match validateArgs a with
  | .error e => .error e
  | .ok _ => processBatch a.segmentLength files

/-- Python's `int()` on an exact rational: truncation toward zero. -/
def pyInt (q : ℚ) : ℤ := if 0 ≤ q then ⌊q⌋ else -⌊-q⌋

/-- The per-label split of `index_dataset.main` (src/index_dataset.py:61-64):
after `random.shuffle(files)` (the model receives the already-shuffled
list), `n_train = int(len(files) * split)`, training is `files[:n_train]`
and test is `files[n_train:]`. -/
def splitLabel (files : List String) (split : ℚ) : List String × List String :=
  let nTrain := (pyInt ((files.length : ℚ) * split)).toNat
  (files.take nTrain, files.drop nTrain)

/-- The label-id assignment of `index_dataset.main`
(src/index_dataset.py:46-51): sort the category basenames lexicographically
(`items.sort(key=lambda x: x[1])`; a stable sort of strings by themselves
is just a sort, rendered here with insertion sort) and build
`{cat: idx for idx, (_, cat) in enumerate(items)}` — a Python dict
comprehension in which a later duplicate key overwrites an earlier one,
modelled by a left fold of function updates. -/
def categoryToId (cats : List String) : String → Option ℕ :=
  ((cats.insertionSort (· ≤ ·)).enum).foldl
    (fun f p => fun c => if c = p.2 then some p.1 else f c) (fun _ => none)

noncomputable section FFT

/-- Coefficient `k` of `numpy.hamming(N)`:
`0.54 - 0.46 * cos(2*pi*k/(N-1))`, with the numpy special case that a
length-1 window is `[1.0]`. -/
def hammingCoef (N k : ℕ) : ℝ :=
  if N = 1 then 1 else 0.54 - 0.46 * Real.cos (2 * Real.pi * k / ((N - 1 : ℕ) : ℝ))

/-- The window `numpy.hamming(N)` as a list of coefficients. -/
def hamming (N : ℕ) : List ℝ := (List.range N).map (hammingCoef N)

/-- The effective input of `scipy.fft.rfft(x, n=n)`: `x` truncated to its
first `n` entries, zero-padded up to `n` entries when it is shorter. -/
def rfftInput (x : List ℝ) (n : ℕ) : List ℝ :=
  x.take n ++ List.replicate (n - x.length) 0

/-- Bin `j` of the `n`-point discrete Fourier transform of a real signal:
`Σ_k x[k] · exp(-2πi·j·k/n)`. -/
def dftBin (x : List ℝ) (n j : ℕ) : ℂ :=
  ∑ k ∈ Finset.range n,
    (x.getD k 0 : ℂ) * Complex.exp (-(2 * Real.pi * Complex.I * j * k) / n)

/-- The transform `scipy.fft.rfft(x, n=n)`: the non-redundant half-spectrum, bins
`0 … n/2` of the `n`-point DFT of the truncated/zero-padded signal. -/
def rfft (x : List ℝ) (n : ℕ) : List ℂ :=
  (List.range (n / 2 + 1)).map fun j => dftBin (rfftInput x n) n j

/-- Round-half-to-even to the nearest integer (the rounding of
`numpy.round`). -/
def roundHalfEven (x : ℝ) : ℤ :=
  if Int.fract x = 1 / 2 then (if Even ⌊x⌋ then ⌊x⌋ else ⌊x⌋ + 1) else round x

/-- The rounding `numpy.round(x, decimals=6)`: round-half-to-even at the 6th decimal. -/
def round6 (x : ℝ) : ℝ := (roundHalfEven (x * 10 ^ 6) : ℝ) / 10 ^ 6

/-- The FFT feature path of `split_audio.split_audio`
(src/split_audio.py:55-66): take the mono segment's samples, multiply by a
Hamming window of the sample count, pick `fft_n = fft_length or
len(windowed_samples)` (`0` plays the role of the falsy `None`/`0`),
compute `rfft(windowed_samples, n=fft_n)` and round the complex magnitudes
to 6 decimals. -/
def extractFeatures (samples : List ℝ) (fftLength : ℕ) : List ℝ :=
  let windowedSamples := List.zipWith (· * ·) samples (hamming samples.length)
  let fftN := if fftLength = 0 then windowedSamples.length else fftLength
  (rfft windowedSamples fftN).map fun c => round6 (Complex.abs c)

end FFT

/-! ## Helper lemmas about the segment walk -/

theorem enum_map_range {β : Type _} (n : ℕ) (g : ℕ → β) :
    ((List.range n).map g).enum = (List.range n).map fun i => (i, g i) := by
  apply List.ext_getElem
  · simp [List.enum_eq_enumFrom]
  · intro i h1 h2
    simp [List.enum_eq_enumFrom, List.getElem_enumFrom]

theorem range_filterMap_if_lt {β : Type _} (g : ℕ → β) (F : ℕ → Option β) (n m : ℕ)
    (hF : ∀ i < n, F i = if i < m then some (g i) else none) :
    (List.range n).filterMap F = (List.range (min m n)).map g := by
  induction n with
  | zero => simp
  | succ n ih =>
    rw [List.range_succ, List.filterMap_append,
      ih fun i hi => hF i (Nat.lt_succ_of_lt hi)]
    have hn := hF n (Nat.lt_succ_self n)
    by_cases h : n < m
    · have h1 : min m n = n := min_eq_right (Nat.le_of_lt h)
      have h2 : min m (n + 1) = n + 1 := min_eq_right h
      rw [h1, h2, List.range_succ, List.map_append]
      simp [hn, h]
    · have h1 : min m n = m := min_eq_left (Nat.le_of_not_lt h)
      have h2 : min m (n + 1) = m := min_eq_left (Nat.le_succ_of_le (Nat.le_of_not_lt h))
      rw [h1, h2]
      simp [hn, h]

/-- Closed form of the segmenter for a positive segment length: it returns
exactly the first `durationMs / (segmentLength * 1000)` walk steps, each of
the full segment length. -/
theorem splitAudio_eq_ok (b : String) (D : ℕ) (L : ℤ) (hL : 0 < L) :
    splitAudio b D L =
      .ok ((List.range (D / (L.toNat * 1000))).map fun i =>
        ⟨i, (i : ℤ) * (L * 1000), (i : ℤ) * (L * 1000) + L * 1000,
          b ++ "_part" ++ pad4 i ++ ".wav"⟩) := by
  have hs : (0 : ℤ) < L * 1000 := by positivity
  have hsne : L * 1000 ≠ 0 := ne_of_gt hs
  have htn : (L * 1000).toNat = L.toNat * 1000 := by omega
  have hk : 0 < L.toNat * 1000 := by omega
  have hcast : ((L.toNat * 1000 : ℕ) : ℤ) = L * 1000 := by omega
  rw [splitAudio, pyRangeFrom0, if_neg hsne, if_pos hs, htn]
  simp only [Except.map]
  congr 1
  rw [enum_map_range, List.filterMap_map]
  have hmn : D / (L.toNat * 1000) ≤ (D + L.toNat * 1000 - 1) / (L.toNat * 1000) :=
    Nat.div_le_div_right (by omega)
  rw [range_filterMap_if_lt
      (fun i => ⟨i, (i : ℤ) * (L * 1000), (i : ℤ) * (L * 1000) + L * 1000,
        b ++ "_part" ++ pad4 i ++ ".wav"⟩) _
      ((D + L.toNat * 1000 - 1) / (L.toNat * 1000)) (D / (L.toNat * 1000)) ?_,
    min_eq_left hmn]
  intro i _
  simp only [Function.comp]
  by_cases him : i < D / (L.toNat * 1000)
  · have h1 : (i + 1) * (L.toNat * 1000) ≤ D :=
      (Nat.le_div_iff_mul_le hk).mp (Nat.succ_le_of_lt him)
    have h2 : (i : ℤ) * (L * 1000) + L * 1000 ≤ (D : ℤ) := by
      have := (Int.ofNat_le.mpr h1)
      push_cast at this
      rw [Int.toNat_of_nonneg hL.le] at this
      nlinarith [this]
    rw [if_pos him]
    rw [min_eq_left h2, add_sub_cancel_left, if_neg (lt_irrefl _)]
  · have h1 : D < (i + 1) * (L.toNat * 1000) := by
      by_contra hcon
      exact him ((Nat.le_div_iff_mul_le hk).mpr (Nat.le_of_not_lt hcon))
    have h2 : (D : ℤ) < (i : ℤ) * (L * 1000) + L * 1000 := by
      have := (Int.ofNat_lt.mpr h1)
      push_cast at this
      rw [Int.toNat_of_nonneg hL.le] at this
      nlinarith [this]
    rw [if_neg him]
    rw [min_eq_right (le_of_lt h2), if_pos (by linarith)]

theorem decDigitsAux_length_le (fuel : ℕ) :
    ∀ (k n : ℕ), 0 < k → n < 10 ^ k → (decDigitsAux fuel n).length ≤ k := by
  induction fuel with
  | zero => intro k n _ _; simp [decDigitsAux]
  | succ fuel ih =>
    intro k n hk hn
    rw [decDigitsAux]
    by_cases h : n < 10
    · rw [if_pos h]; simpa using hk
    · rw [if_neg h]
      have hk2 : 2 ≤ k := by
        rcases k with _ | _ | k
        · omega
        · exact absurd hn (by simpa using h)
        · omega
      have hdiv : n / 10 < 10 ^ (k - 1) := by
        rw [Nat.div_lt_iff_lt_mul (by norm_num)]
        calc n < 10 ^ k := hn
          _ = 10 ^ (k - 1) * 10 := by
            rw [← pow_succ]
            congr 1
            omega
      have := ih (k - 1) (n / 10) (by omega) hdiv
      simp only [List.length_append, List.length_cons, List.length_nil]
      omega

theorem pad4_length {i : ℕ} (hi : i < 10000) : (pad4 i).length = 4 := by
  have h4 : (decDigits i).length ≤ 4 :=
    decDigitsAux_length_le (i + 1) 4 i (by norm_num) (by simpa using hi)
  show (List.replicate (4 - (decDigits i).length) '0' ++ decDigits i).length = 4
  rw [List.length_append, List.length_replicate]
  omega

/-! ## Claim theorems -/

/-- C1: for every recording of duration `D` ms and every positive segment
length `L` seconds, `split_audio` retains exactly `⌊D / (L*1000)⌋`
segments, every retained segment spans exactly `L*1000` ms, and a
recording shorter than one segment length yields zero segments with no
error. -/
theorem split_audio_count_and_length (b : String) (D : ℕ) (L : ℤ) (hL : 0 < L) :
    ∃ segs, splitAudio b D L = .ok segs ∧
      segs.length = D / (L.toNat * 1000) ∧
      (∀ sg ∈ segs, sg.endMs - sg.startMs = L * 1000) ∧
      (D < L.toNat * 1000 → segs = []) := by
  refine ⟨_, splitAudio_eq_ok b D L hL, ?_, ?_, ?_⟩
  · simp
  · intro sg hsg
    simp only [List.mem_map, List.mem_range] at hsg
    obtain ⟨i, _, rfl⟩ := hsg
    ring
  · intro hD
    rw [Nat.div_eq_of_lt hD]
    simp

/-- Witness for C1: the spec's end-to-end example, a 125-second recording
with 30-second segments gives 4 retained segments of exactly 30000 ms. -/
theorem split_audio_count_and_length_witness :
    (0 : ℤ) < 30 ∧
    ∃ segs, splitAudio "rec" 125000 30 = .ok segs ∧
      segs.length = 125000 / ((30 : ℤ).toNat * 1000) ∧
      (∀ sg ∈ segs, sg.endMs - sg.startMs = 30 * 1000) ∧
      (125000 < (30 : ℤ).toNat * 1000 → segs = []) :=
  ⟨by decide, split_audio_count_and_length "rec" 125000 30 (by decide)⟩

/-- C8: retained segments carry the zero-padded 4-digit ordinal of their
walk step; for a positive segment length the ordinal sequence is exactly
`0, 1, …, ⌊D/(L*1000)⌋ - 1` — strictly increasing, gapless, starting at
zero — and each name is `<basename>_part<ordinal:04d>.wav`, the padded
ordinal being 4 characters wide whenever it is below 10000. -/
theorem split_audio_ordinals_contiguous (b : String) (D : ℕ) (L : ℤ) (hL : 0 < L) :
    ∃ segs, splitAudio b D L = .ok segs ∧
      segs.map (·.ordinal) = List.range (D / (L.toNat * 1000)) ∧
      (segs.map (·.ordinal)).Pairwise (· < ·) ∧
      (∀ sg ∈ segs, sg.name = b ++ "_part" ++ pad4 sg.ordinal ++ ".wav") ∧
      (∀ sg ∈ segs, sg.ordinal < 10000 → (pad4 sg.ordinal).length = 4) := by
  have hord : (((List.range (D / (L.toNat * 1000))).map fun i =>
      (⟨i, (i : ℤ) * (L * 1000), (i : ℤ) * (L * 1000) + L * 1000,
        b ++ "_part" ++ pad4 i ++ ".wav"⟩ : Seg)).map (·.ordinal)) =
      List.range (D / (L.toNat * 1000)) := by
    rw [List.map_map]
    exact List.map_id _
  refine ⟨_, splitAudio_eq_ok b D L hL, hord, ?_, ?_, ?_⟩
  · rw [hord]
    exact List.pairwise_lt_range _
  · intro sg hsg
    simp only [List.mem_map, List.mem_range] at hsg
    obtain ⟨i, _, rfl⟩ := hsg
    rfl
  · intro sg _ h
    exact pad4_length h

/-- Witness for C8: a 65-second recording at 30-second segments. -/
theorem split_audio_ordinals_contiguous_witness :
    (0 : ℤ) < 30 ∧
    ∃ segs, splitAudio "x" 65000 30 = .ok segs ∧
      segs.map (·.ordinal) = List.range (65000 / ((30 : ℤ).toNat * 1000)) ∧
      (segs.map (·.ordinal)).Pairwise (· < ·) ∧
      (∀ sg ∈ segs, sg.name = "x" ++ "_part" ++ pad4 sg.ordinal ++ ".wav") ∧
      (∀ sg ∈ segs, sg.ordinal < 10000 → (pad4 sg.ordinal).length = 4) :=
  ⟨by decide, split_audio_ordinals_contiguous "x" 65000 30 (by decide)⟩

/-- C10: the CLI accepts any integer segment length without a positivity
check; `segment_length = 0` raises an uncaught `ValueError` from
`range(0, duration_ms, 0)` before any segment is produced, and a negative
`segment_length` yields an empty segment list with no error. -/
theorem segment_length_unvalidated_zero_raises_negative_empty
    (a : Args) (ha : a.fft = false) (b : String) (D : ℕ) (L : ℤ) (hL : L < 0) :
    validateArgs a = .ok () ∧
    splitAudio b D 0 = .error "range() arg 3 must not be zero" ∧
    splitAudio b D L = .ok [] := by
  refine ⟨by simp [validateArgs, ha], rfl, ?_⟩
  rw [splitAudio, pyRangeFrom0, if_neg (by omega : ¬(L * 1000 = 0)),
    if_neg (by omega : ¬((0 : ℤ) < L * 1000))]
  rfl

/-- Witness for C10: segment length `-3` (and `0`) on a 5-second file,
with `--fft` off. -/
theorem segment_length_unvalidated_witness :
    (Args.mk 30 false 1023 none).fft = false ∧ (-3 : ℤ) < 0 ∧
    (validateArgs (Args.mk 30 false 1023 none) = .ok () ∧
      splitAudio "x" 5000 0 = .error "range() arg 3 must not be zero" ∧
      splitAudio "x" 5000 (-3) = .ok []) :=
  ⟨rfl, by decide,
    segment_length_unvalidated_zero_raises_negative_empty _ rfl "x" 5000 (-3) (by decide)⟩

/-- C2 (code bug): the directory batch loop of `main` wraps `split_audio`
in no `try`/`except`, so a decode failure on the first file aborts the
whole batch — the later, perfectly readable file is never processed —
while the same good file alone yields its four segments. -/
theorem decode_error_aborts_batch :
    processBatch 30 [("bad", .error "DecodeError: Decoding failed"), ("good", .ok 125000)] =
      .error "DecodeError: Decoding failed" ∧
    processBatch 30 [("good", .ok 125000)] =
      .ok ["good_part0000.wav", "good_part0001.wav", "good_part0002.wav",
        "good_part0003.wav"] := by
  constructor
  · rfl
  · rfl

/-- C7 (counterexample to the claim as stated): first, `--fft-length -1`
supplied while `--fft` is absent is accepted without any validation error —
the program processes its input and exits successfully, so supplying
`fft_length <= 0` does not by itself make the program fail; second, a
missing `--fft-dir` with a perfectly positive `fft_length` also exits
non-zero, so the `fft_length` validation failure is not the only condition
reflected in a non-zero exit code. -/
theorem fft_length_nonpositive_accepted_without_fft :
    runMain (Args.mk 30 false (-1) none) [("rec", .ok 65000)] =
      .ok ["rec_part0000.wav", "rec_part0001.wav"] ∧
    runMain (Args.mk 30 true 1023 none) [] =
      .error "--fft-dir is required when --fft is specified" := by
  constructor
  · rfl
  · rfl

/-- C7 (amended): when `--fft` is requested with `fft_length <= 0`, the
run fails with a parameter-validation error whose message does not depend
on the input files — validation happens before any file is processed,
never per-segment. -/
theorem fft_invalid_length_fails_before_processing
    (a : Args) (h1 : a.fft = true) (h2 : a.fftLength ≤ 0) :
    ∃ e, ∀ files, runMain a files = .error e := by
  rcases hd : a.fftDir with _ | d
  · refine ⟨"--fft-dir is required when --fft is specified", fun files => ?_⟩
    simp [runMain, validateArgs, h1, hd]
  · refine ⟨"--fft-length must be a positive integer", fun files => ?_⟩
    simp [runMain, validateArgs, h1, hd, h2]

/-- Witness for the amended C7: `--fft --fft-dir fft --fft-length 0`. -/
theorem fft_invalid_length_fails_witness :
    (Args.mk 30 true 0 (some "fft")).fft = true ∧
    (Args.mk 30 true 0 (some "fft")).fftLength ≤ 0 ∧
    ∃ e, ∀ files, runMain (Args.mk 30 true 0 (some "fft")) files = .error e :=
  ⟨rfl, by decide,
    fft_invalid_length_fails_before_processing _ rfl (by decide)⟩

/-- C5: for a label with `n` (already shuffled) files and a split fraction
`s ∈ (0,1)`, the training slice has exactly `⌊n*s⌋` files and training
plus test is exactly `n`. -/
theorem split_label_train_floor_total (files : List String) (s : ℚ)
    (h0 : 0 < s) (h1 : s < 1) :
    (((splitLabel files s).1.length : ℤ) = ⌊(files.length : ℚ) * s⌋) ∧
    (splitLabel files s).1.length + (splitLabel files s).2.length = files.length := by
  have hnn : 0 ≤ (files.length : ℚ) * s := mul_nonneg (by positivity) h0.le
  have hfl : 0 ≤ ⌊(files.length : ℚ) * s⌋ := Int.floor_nonneg.mpr hnn
  have hle : (files.length : ℚ) * s ≤ (files.length : ℚ) :=
    mul_le_of_le_one_right (by positivity) h1.le
  have hfle : ⌊(files.length : ℚ) * s⌋ ≤ (files.length : ℤ) := by
    have := Int.floor_le_floor hle
    rwa [Int.floor_natCast] at this
  simp only [splitLabel, pyInt, if_pos hnn, List.length_take, List.length_drop]
  constructor
  · omega
  · omega

/-- Witness for C5: three files at a 50% split give `⌊3·(1/2)⌋ = 1`
training file and 2 test files. -/
theorem split_label_train_floor_total_witness :
    ((0 : ℚ) < 1 / 2 ∧ (1 : ℚ) / 2 < 1) ∧
    ((((splitLabel ["f1", "f2", "f3"] (1 / 2)).1.length : ℤ) =
        ⌊((["f1", "f2", "f3"] : List String).length : ℚ) * (1 / 2)⌋) ∧
      (splitLabel ["f1", "f2", "f3"] (1 / 2)).1.length +
        (splitLabel ["f1", "f2", "f3"] (1 / 2)).2.length =
        (["f1", "f2", "f3"] : List String).length) :=
  ⟨⟨by norm_num, by norm_num⟩,
    split_label_train_floor_total ["f1", "f2", "f3"] (1 / 2) (by norm_num) (by norm_num)⟩

theorem foldl_dict_no_match (ps : List (ℕ × String)) (init : String → Option ℕ)
    (c : String) (h : ∀ q ∈ ps, q.2 ≠ c) :
    ps.foldl (fun f p => fun x => if x = p.2 then some p.1 else f x) init c = init c := by
  induction ps generalizing init with
  | nil => rfl
  | cons p rest ih =>
    rw [List.foldl_cons, ih _ fun q hq => h q (List.mem_cons_of_mem _ hq)]
    exact if_neg fun hc => h p (List.mem_cons_self p rest) hc.symm

theorem foldl_dict_sorted (l : List String) (c : String) :
    ∀ (k : ℕ) (init : String → Option ℕ), List.Sorted (· ≤ ·) l → l.Nodup → c ∈ l →
    (l.enumFrom k).foldl (fun f p => fun x => if x = p.2 then some p.1 else f x) init c =
      some (k + (l.filter fun x => x < c).length) := by
  induction l with
  | nil => intro _ _ _ _ hc; cases hc
  | cons a t ih =>
    intro k init hsort hnd hc
    rw [List.enumFrom_cons, List.foldl_cons]
    rcases List.mem_cons.mp hc with rfl | hct
    · rw [foldl_dict_no_match]
      · simp only [if_pos rfl]
        have hfil : (c :: t).filter (fun x => decide (x < c)) = [] := by
          rw [List.filter_eq_nil_iff]
          intro x hx
          rcases List.mem_cons.mp hx with rfl | hxt
          · simp
          · have hax : c ≤ x := List.rel_of_sorted_cons hsort x hxt
            simp only [decide_eq_true_eq]
            exact not_lt_of_ge hax
        rw [hfil]
        simp
      · intro q hq hq2
        have hsnd : q.2 ∈ t := by
          have hmap := List.enumFrom_map_snd (k + 1) t
          have : q.2 ∈ (t.enumFrom (k + 1)).map Prod.snd :=
            List.mem_map_of_mem Prod.snd hq
          rwa [hmap] at this
        exact (List.nodup_cons.mp hnd).1 (hq2 ▸ hsnd)
    · have hat : a ∉ t := (List.nodup_cons.mp hnd).1
      have hac : a < c :=
        lt_of_le_of_ne (List.rel_of_sorted_cons hsort c hct)
          fun h => hat (h ▸ hct)
      rw [ih (k + 1) _ hsort.of_cons (List.nodup_cons.mp hnd).2 hct]
      rw [List.filter_cons, if_pos (by simpa using hac)]
      simp only [List.length_cons]
      congr 1
      omega

/-- C6 (amended: distinct basenames): with pairwise-distinct label
basenames, each label's id is the lexicographic rank of its basename among
all provided labels. -/
theorem categoryToId_lexicographic_rank (cats : List String) (hnd : cats.Nodup)
    (c : String) (hc : c ∈ cats) :
    categoryToId cats c = some ((cats.filter fun x => x < c).length) := by
  have hperm := List.perm_insertionSort (α := String) (· ≤ ·) cats
  have hsort := List.sorted_insertionSort (α := String) (· ≤ ·) cats
  have hnd' : (cats.insertionSort (· ≤ ·)).Nodup := hperm.nodup_iff.mpr hnd
  have hc' : c ∈ cats.insertionSort (· ≤ ·) := hperm.mem_iff.mpr hc
  rw [categoryToId, List.enum_eq_enumFrom,
    foldl_dict_sorted _ c 0 _ hsort hnd' hc', Nat.zero_add,
    (hperm.filter _).length_eq]

/-- Witness for the amended C6: labels `["b", "a"]` — the id of `"a"` is
its lexicographic rank. -/
theorem categoryToId_lexicographic_rank_witness :
    (["b", "a"] : List String).Nodup ∧ "a" ∈ (["b", "a"] : List String) ∧
    categoryToId ["b", "a"] "a" =
      some (((["b", "a"] : List String).filter fun x => x < "a").length) :=
  ⟨by decide, by decide,
    categoryToId_lexicographic_rank ["b", "a"] (by decide) "a" (by decide)⟩

/-- C6 (counterexample to the claim as stated): two provided directories
sharing the basename `"a"` (e.g. `data1/a` and `data2/a`) plus `"b"`:
the dict comprehension lets the later duplicate overwrite the earlier one,
so label `"a"` gets id 1 while its lexicographic rank is 0 — and no label
gets id 0, so ids are not dense from 0. -/
theorem categoryToId_duplicate_basenames_break_rank :
    categoryToId ["a", "a", "b"] "a" = some 1 ∧
    ((["a", "a", "b"] : List String).filter fun x => x < "a").length = 0 := by
  have hab : ("a" : String) ≤ "b" := by
    rw [String.le_iff_toList_le]
    decide
  have hsorted : List.Sorted (· ≤ ·) (["a", "a", "b"] : List String) := by
    rw [List.sorted_cons]
    refine ⟨?_, ?_⟩
    · intro x hx
      rcases List.mem_cons.mp hx with rfl | hx2
      · exact le_refl _
      · rcases List.mem_cons.mp hx2 with rfl | hx3
        · exact hab
        · cases hx3
    · rw [List.sorted_cons]
      refine ⟨?_, List.sorted_singleton _⟩
      intro x hx
      rcases List.mem_cons.mp hx with rfl | hx2
      · exact hab
      · cases hx2
  constructor
  · rw [categoryToId, List.Sorted.insertionSort_eq hsorted]
    rfl
  · rw [List.length_eq_zero, List.filter_eq_nil_iff]
    intro x hx
    rcases List.mem_cons.mp hx with rfl | hx2
    · simp
    · rcases List.mem_cons.mp hx2 with rfl | hx3
      · simp
      · rcases List.mem_cons.mp hx3 with rfl | hx4
        · simp only [decide_eq_true_eq]
          intro hlt
          exact absurd (lt_of_lt_of_le hlt hab) (lt_irrefl _)
        · cases hx4

theorem roundHalfEven_nonneg {x : ℝ} (hx : 0 ≤ x) : 0 ≤ roundHalfEven x := by
  unfold roundHalfEven
  split_ifs with h1 h2
  · exact Int.floor_nonneg.mpr hx
  · have := Int.floor_nonneg.mpr hx
    omega
  · rw [round_eq]
    apply Int.floor_nonneg.mpr
    linarith

/-- C4: for every segment sample buffer and positive `fft_length`, the
feature vector has exactly `fft_length / 2 + 1` entries, each a
non-negative multiple of `10⁻⁶` (a magnitude rounded once to 6 decimal
digits). -/
theorem feature_vector_length_nonneg_rounded (samples : List ℝ) (n : ℕ) (hn : 0 < n) :
    (extractFeatures samples n).length = n / 2 + 1 ∧
    ∀ v ∈ extractFeatures samples n, 0 ≤ v ∧ ∃ m : ℤ, v = (m : ℝ) / 10 ^ 6 := by
  constructor
  · simp [extractFeatures, rfft, Nat.pos_iff_ne_zero.mp hn]
  · intro v hv
    simp only [extractFeatures, if_neg (Nat.pos_iff_ne_zero.mp hn), List.mem_map] at hv
    obtain ⟨c, _, rfl⟩ := hv
    refine ⟨?_, roundHalfEven (Complex.abs c * 10 ^ 6), rfl⟩
    have habs : (0 : ℝ) ≤ Complex.abs c * 10 ^ 6 := by positivity
    have hr : (0 : ℤ) ≤ roundHalfEven (Complex.abs c * 10 ^ 6) := roundHalfEven_nonneg habs
    unfold round6
    apply div_nonneg _ (by positivity)
    exact_mod_cast hr

/-- Witness for C4 at `samples = [1]`, `fft_length = 4`. -/
theorem feature_vector_length_nonneg_rounded_witness :
    0 < 4 ∧
    ((extractFeatures [1] 4).length = 4 / 2 + 1 ∧
      ∀ v ∈ extractFeatures [1] 4, 0 ≤ v ∧ ∃ m : ℤ, v = (m : ℝ) / 10 ^ 6) :=
  ⟨by decide, feature_vector_length_nonneg_rounded [1] 4 (by decide)⟩

/-- C3: the Hamming window applied by the extractor has the length of the
full segment, and when `fft_length ≤` sample count the real FFT consumes
the truncation of the *already windowed* signal: entry `k` of the FFT
input is `samples[k] * hammingCoef (samples.length) k` — the window is
indexed by the full sample count, never by the truncated length. -/
theorem fft_window_applied_before_truncation (samples : List ℝ) (n : ℕ)
    (hn : 0 < n) (hlen : n ≤ samples.length) :
    rfftInput (List.zipWith (· * ·) samples (hamming samples.length)) n =
      (List.zipWith (· * ·) samples (hamming samples.length)).take n ∧
    extractFeatures samples n =
      (rfft ((List.range n).map fun k => samples.getD k 0 * hammingCoef samples.length k)
        n).map fun c => round6 (Complex.abs c) := by
  have hwlen : (List.zipWith (· * ·) samples (hamming samples.length)).length =
      samples.length := by
    simp [hamming]
  have htrunc : rfftInput (List.zipWith (· * ·) samples (hamming samples.length)) n =
      (List.zipWith (· * ·) samples (hamming samples.length)).take n := by
    unfold rfftInput
    rw [hwlen, Nat.sub_eq_zero_of_le hlen, List.replicate_zero, List.append_nil]
  refine ⟨htrunc, ?_⟩
  have hXfull : rfftInput ((List.range n).map fun k =>
      samples.getD k 0 * hammingCoef samples.length k) n =
      (List.range n).map fun k => samples.getD k 0 * hammingCoef samples.length k := by
    unfold rfftInput
    rw [List.length_map, List.length_range, Nat.sub_self, List.replicate_zero,
      List.append_nil]
    exact List.take_of_length_le (by simp)
  have hinput : rfftInput (List.zipWith (· * ·) samples (hamming samples.length)) n =
      rfftInput ((List.range n).map fun k =>
        samples.getD k 0 * hammingCoef samples.length k) n := by
    rw [htrunc, hXfull]
    apply List.ext_getElem
    · simp only [List.length_take, List.length_map, List.length_range, hwlen]
      omega
    · intro i h1 h2
      rw [List.getElem_take, List.getElem_zipWith, List.getElem_map, List.getElem_range]
      have hi : i < samples.length := by
        simp only [List.length_take, hwlen] at h1
        omega
      rw [List.getD_eq_getElem _ _ hi]
      congr 1
      simp only [hamming, List.getElem_map, List.getElem_range]
  unfold extractFeatures
  simp only [if_neg (Nat.pos_iff_ne_zero.mp hn)]
  unfold rfft
  rw [hinput]

/-- Witness for C3 at `samples = [1, 2, 3]`, `fft_length = 2`. -/
theorem fft_window_applied_before_truncation_witness :
    (0 < 2 ∧ 2 ≤ ([1, 2, 3] : List ℝ).length) ∧
    (rfftInput (List.zipWith (· * ·) [1, 2, 3] (hamming ([1, 2, 3] : List ℝ).length)) 2 =
        (List.zipWith (· * ·) [1, 2, 3] (hamming ([1, 2, 3] : List ℝ).length)).take 2 ∧
      extractFeatures [1, 2, 3] 2 =
        (rfft ((List.range 2).map fun k =>
          ([1, 2, 3] : List ℝ).getD k 0 * hammingCoef ([1, 2, 3] : List ℝ).length k)
          2).map fun c => round6 (Complex.abs c)) :=
  ⟨⟨by decide, by simp⟩,
    fft_window_applied_before_truncation [1, 2, 3] 2 (by decide) (by simp)⟩

/-- C9: the FFT extraction path is a pure function of the segment samples
and `fft_length` — two runs on equal inputs produce identical
post-rounding feature vectors. -/
theorem fft_extraction_deterministic (s₁ s₂ : List ℝ) (n₁ n₂ : ℕ)
    (hs : s₁ = s₂) (hn : n₁ = n₂) :
    extractFeatures s₁ n₁ = extractFeatures s₂ n₂ := by
  rw [hs, hn]

/-- Witness for C9: running the extractor twice on `[1, 2]` with
`fft_length = 3`. -/
theorem fft_extraction_deterministic_witness :
    (([1, 2] : List ℝ) = [1, 2] ∧ 3 = 3) ∧
    extractFeatures [1, 2] 3 = extractFeatures [1, 2] 3 :=
  ⟨⟨rfl, rfl⟩, fft_extraction_deterministic [1, 2] [1, 2] 3 3 rfl rfl⟩

end SplitAndSpectro
